import Mathlib

/-
Verification of the WExplore region-tree resampler
(src/wepy/resampling/resamplers/wexplore.py).

Walker weights are Python floats in the source; they are modelled here as
rationals (ℚ).  Python runtime failures (exceptions) are modelled with an
explicit error type, and functions whose Python body can raise return
`Except PyError _` or pair their result with such a value.
-/

namespace Wexplore

/-- Python-level runtime errors relevant to the embedded code paths. -/
inductive PyError where
  | regionTreeError
  | valueError
  | nameError
  | unboundLocalError
  | attributeError
  | assertionError
  deriving DecidableEq, Repr

/-! ## calc_squashable_walkers_single_method (wexplore.py lines 21-68)

The Python body sorts the weights ascending, then runs

    idx = 0
    sum_weights = walker_weights[idx]
    merge_size = 1
    while sum_weights <= max_weight:
        if idx + 1 >= len(walker_weights): break
        else: idx += 1
        sum_weights += walker_weights[idx]
        merge_size += 1
    else:
        merge_size -= 1          -- runs only when the condition fails
    n_squashable = merge_size - 1
    return n_squashable

`squashLoop` carries the list of weights not yet consumed (the elements
after position `idx`), the running sum `sum_weights`, and `merge_size`
(as an integer, since the final result can be -1).  Exiting with the
`while` condition false corresponds to the `else:` branch. -/
def squashLoop (pmax : ℚ) : List ℚ → ℚ → ℤ → ℤ
  | rest, sumW, mergeSize =>
    if sumW ≤ pmax then
      match rest with
      | [] => mergeSize                      -- idx+1 >= len: break (no else)
      | w :: rest' => squashLoop pmax rest' (sumW + w) (mergeSize + 1)
    else mergeSize - 1                       -- condition failed: while-else fires

/-- wexplore.py lines 21-68.  On an empty list the Python code raises
IndexError at `walker_weights[0]`; every claim below assumes a non-empty
list, and the `[]` branch here is never relied upon. -/
def calc_squashable_walkers_single_method (ws : List ℚ) (pmax : ℚ) : ℤ :=
  match List.insertionSort (· ≤ ·) ws with
  | [] => 0
  | w :: rest => squashLoop pmax rest w 1 - 1

/-! Spec-side definition (§4.3 of the spec, quoted by claim C1): given the
ascending-sorted weights, "find the largest k such that w₁ + … + w_k ≤ pmax".
`lplAux` searches downward from `ws.length`, so it returns the largest such
`k` (and 0 when only the empty prefix qualifies). -/
def lplAux (ws : List ℚ) (pmax : ℚ) : ℕ → ℕ
  | 0 => 0
  | k + 1 => if (ws.take (k + 1)).sum ≤ pmax then k + 1 else lplAux ws pmax k

/-- Largest `k` such that the sum of the first `k` entries of `ws` is `≤ pmax`. -/
def largestPrefixLen (ws : List ℚ) (pmax : ℚ) : ℕ :=
  lplAux ws pmax ws.length

theorem list_sum_nonpos {l : List ℚ} (h : ∀ x ∈ l, x ≤ 0) : l.sum ≤ 0 := by
  induction l with
  | nil => simp
  | cons a t ih =>
    simp only [List.sum_cons]
    have ha := h a (by simp)
    have ht := ih (fun x hx => h x (by simp [hx]))
    linarith

/-- In an ascending-sorted list, once a prefix sum exceeds a positive bound,
every longer prefix sum exceeds it as well. -/
theorem sum_take_fail_mono {s : List ℚ} {pmax : ℚ} (hs : s.Sorted (· ≤ ·))
    (hp : 0 < pmax) {m k : ℕ} (hmk : m ≤ k)
    (hfail : ¬ (s.take m).sum ≤ pmax) : ¬ (s.take k).sum ≤ pmax := by
  intro hk
  apply hfail
  have hdecomp : s.take k = s.take m ++ (s.drop m).take (k - m) := by
    have h := List.take_add s m (k - m)
    rw [show m + (k - m) = k from by omega] at h
    exact h
  have hpos : ∃ x ∈ s.take m, 0 < x := by
    by_contra hno
    push_neg at hno
    exact hfail ((list_sum_nonpos hno).trans hp.le)
  obtain ⟨x, hxmem, hx0⟩ := hpos
  have hrel : ∀ y ∈ s.drop m, x ≤ y := by
    have hpw : List.Pairwise (· ≤ ·) (s.take m ++ s.drop m) := by
      rw [List.take_append_drop]; exact hs
    rcases List.pairwise_append.1 hpw with ⟨_, _, hcross⟩
    exact fun y hy => hcross x hxmem y hy
  have htail : 0 ≤ ((s.drop m).take (k - m)).sum := by
    apply List.sum_nonneg
    intro y hy
    exact hx0.le.trans (hrel y (List.take_subset _ _ hy))
  have hsplit : (s.take k).sum = (s.take m).sum + ((s.drop m).take (k - m)).sum := by
    rw [hdecomp, List.sum_append]
  linarith

theorem lplAux_le (ws : List ℚ) (pmax : ℚ) : ∀ n, lplAux ws pmax n ≤ n := by
  intro n
  induction n with
  | zero => simp [lplAux]
  | succ n ih =>
    by_cases h : (ws.take (n + 1)).sum ≤ pmax
    · simp [lplAux, h]
    · simp only [lplAux, h, if_false]
      omega

theorem lplAux_sum_le (ws : List ℚ) (pmax : ℚ) (hp : 0 ≤ pmax) :
    ∀ n, (ws.take (lplAux ws pmax n)).sum ≤ pmax := by
  intro n
  induction n with
  | zero => simpa [lplAux] using hp
  | succ n ih =>
    by_cases h : (ws.take (n + 1)).sum ≤ pmax
    · simp [lplAux, h]
    · simpa [lplAux, h] using ih

theorem le_lplAux (ws : List ℚ) (pmax : ℚ) :
    ∀ n j, j ≤ n → (ws.take j).sum ≤ pmax → j ≤ lplAux ws pmax n := by
  intro n
  induction n with
  | zero => intro j hj _; simpa [lplAux] using hj
  | succ n ih =>
    intro j hj hsum
    by_cases h : (ws.take (n + 1)).sum ≤ pmax
    · simpa [lplAux, h] using hj
    · simp only [lplAux, h, if_false]
      have hjn : j ≤ n := by
        rcases Nat.lt_or_ge j (n + 1) with h' | h'
        · omega
        · exact absurd hsum (by
            have : j = n + 1 := by omega
            rw [this]; exact h)
      exact ih j hjn hsum

/-- When the prefix of length `c` is the first one over the bound, the
largest admissible prefix length is `c - 1`. -/
theorem lpl_of_first_fail {s : List ℚ} {pmax : ℚ} (hs : s.Sorted (· ≤ ·))
    (hp : 0 < pmax) {c : ℕ} (h1 : 1 ≤ c) (hcn : c ≤ s.length)
    (hprev : ∀ j, j < c → (s.take j).sum ≤ pmax)
    (hPk : ¬ (s.take c).sum ≤ pmax) : largestPrefixLen s pmax = c - 1 := by
  unfold largestPrefixLen
  have hlow : c - 1 ≤ lplAux s pmax s.length :=
    le_lplAux s pmax s.length (c - 1) (by omega) (hprev (c - 1) (by omega))
  have hhigh : lplAux s pmax s.length ≤ c - 1 := by
    by_contra hlt
    have hge : c ≤ lplAux s pmax s.length := by omega
    exact sum_take_fail_mono hs hp hge hPk (lplAux_sum_le s pmax hp.le s.length)
  omega

/-- Invariant-carrying characterisation of the `while` loop of
`calc_squashable_walkers_single_method`: from a state where `c` weights
(`1 ≤ c ≤ |s|`) have been summed and every shorter prefix was within
`pmax`, the loop computes `largestPrefixLen s pmax`. -/
theorem squashLoop_eq_lpl (s : List ℚ) (pmax : ℚ) (hs : s.Sorted (· ≤ ·))
    (hp : 0 < pmax) :
    ∀ d c, c + d = s.length → 1 ≤ c →
      (∀ j, j < c → (s.take j).sum ≤ pmax) →
      squashLoop pmax (s.drop c) ((s.take c).sum) (c : ℤ)
        = (largestPrefixLen s pmax : ℤ) := by
  intro d
  induction d with
  | zero =>
    intro c hc h1 hprev
    have hcn : c = s.length := by omega
    have hdrop : s.drop c = [] := by rw [hcn]; exact List.drop_length s
    by_cases hPk : (s.take c).sum ≤ pmax
    · simp only [squashLoop, hPk, if_true, hdrop]
      have hlpl : largestPrefixLen s pmax = c :=
        le_antisymm (hcn ▸ lplAux_le s pmax s.length)
          (le_lplAux s pmax s.length c (by omega) hPk)
      rw [hlpl]
    · rw [hdrop]
      simp only [squashLoop, hPk, if_false]
      have hlpl : largestPrefixLen s pmax = c - 1 :=
        lpl_of_first_fail hs hp h1 (by omega) hprev hPk
      rw [hlpl]
      omega
  | succ d ih =>
    intro c hc h1 hprev
    have hclen : c < s.length := by omega
    have hdrop : s.drop c = s[c] :: s.drop (c + 1) :=
      List.drop_eq_getElem_cons hclen
    by_cases hPk : (s.take c).sum ≤ pmax
    · rw [hdrop]
      simp only [squashLoop, hPk, if_true]
      have hsum : (s.take c).sum + s[c] = (s.take (c + 1)).sum :=
        (List.sum_take_succ s c hclen).symm
      have hcast : (c : ℤ) + 1 = ((c + 1 : ℕ) : ℤ) := by push_cast; ring
      rw [hsum, hcast]
      refine ih (c + 1) (by omega) (by omega) ?_
      intro j hj
      rcases Nat.lt_or_ge j c with h' | h'
      · exact hprev j h'
      · have : j = c := by omega
        rw [this]; exact hPk
    · rw [hdrop]
      simp only [squashLoop, hPk, if_false]
      have hlpl : largestPrefixLen s pmax = c - 1 :=
        lpl_of_first_fail hs hp h1 (by omega) hprev hPk
      rw [hlpl]
      omega

/-- C1 (amended): for every non-empty weight list and `pmax > 0`,
`calc_squashable_walkers_single_method` returns `k - 1` as a signed
integer, where `k` is the largest prefix of the ascending-sorted weights
whose sum is `≤ pmax`.  In particular it returns `0` when `k = 1` and
`-1` (not `0`) when `k = 0`, i.e. when even the single smallest weight
exceeds `pmax`. -/
theorem c1_squashable_amended (ws : List ℚ) (pmax : ℚ) (hne : ws ≠ [])
    (hp : 0 < pmax) :
    calc_squashable_walkers_single_method ws pmax
      = (largestPrefixLen (List.insertionSort (· ≤ ·) ws) pmax : ℤ) - 1 := by
  have hperm := List.perm_insertionSort (· ≤ ·) ws
  have hsorted := List.sorted_insertionSort (· ≤ ·) ws
  unfold calc_squashable_walkers_single_method
  cases hsort : List.insertionSort (· ≤ ·) ws with
  | nil =>
    exact absurd (hperm.symm.trans (hsort ▸ List.Perm.refl _)).symm.nil_eq
      (Ne.symm hne)
  | cons w rest =>
    rw [hsort] at hsorted
    have hlen : 1 ≤ (w :: rest).length := by simp
    have hloop := squashLoop_eq_lpl (w :: rest) pmax hsorted hp
      ((w :: rest).length - 1) 1 (by omega) (by omega) ?_
    · have hdrop : (w :: rest).drop 1 = rest := rfl
      have htake : ((w :: rest).take 1).sum = w := by simp
      rw [hdrop, htake, show ((1 : ℕ) : ℤ) = 1 from by norm_num] at hloop
      show squashLoop pmax rest w 1 - 1 = _
      rw [hloop]
    · intro j hj
      have : j = 0 := by omega
      rw [this]
      simpa using hp.le

/-- C1 counterexample: with the single weight `3/4` and `pmax = 1/2`, the
largest admissible prefix is `k = 0` (`k ≤ 1`), so the claim predicts a
return value of `0`; the code returns `-1`. -/
theorem c1_squashable_counterexample :
    largestPrefixLen (List.insertionSort (· ≤ ·) [(3 : ℚ)/4]) (1/2) = 0 ∧
    calc_squashable_walkers_single_method [(3 : ℚ)/4] (1/2) ≠ 0 := by
  constructor
  · norm_num [largestPrefixLen, lplAux, List.insertionSort]
  · norm_num [calc_squashable_walkers_single_method, squashLoop, List.insertionSort]

/-- Witness for `c1_squashable_amended` at a concrete input. -/
theorem c1_squashable_amended_witness :
    ([1/10, 1/10, 1/10, (2 : ℚ)/10] ≠ ([] : List ℚ)) ∧ (0 : ℚ) < 1/4 ∧
    calc_squashable_walkers_single_method [1/10, 1/10, 1/10, (2 : ℚ)/10] (1/4)
      = (largestPrefixLen
          (List.insertionSort (· ≤ ·) [1/10, 1/10, 1/10, (2 : ℚ)/10]) (1/4) : ℤ) - 1 :=
  ⟨by simp, by norm_num,
   c1_squashable_amended [1/10, 1/10, 1/10, (2 : ℚ)/10] (1/4) (by simp) (by norm_num)⟩

/-! ## calc_max_num_clones (wexplore.py lines 94-121)

For each weight the Python body runs

    n_splits = 2
    while ((walker_weight / n_splits) >= min_weight) and
          (n_splits <= max_num_walkers):
        n_splits += 1
    n_splits -= 1
    max_n_clones[idx] = n_splits - 1

`splitsLoopAux` carries `n_splits` in `s`; the fuel argument `k`
maintains `mnw + 1 ≤ k + s`, so the fuel cannot run out before the
conjunct `n_splits <= max_num_walkers` has failed (at `k = 0` we have
`s > mnw` and Python would exit the loop too). -/
def splitsLoopAux (w pmin : ℚ) (mnw : ℕ) : ℕ → ℕ → ℕ
  | 0, s => s
  | k + 1, s =>
    if pmin ≤ w / (s : ℚ) ∧ s ≤ mnw then splitsLoopAux w pmin mnw k (s + 1)
    else s

/-- Per-walker count from `calc_max_num_clones`: final `n_splits` minus 2
(`n_splits -= 1` followed by `n_splits - 1`). -/
def max_n_clones_of (pmin : ℚ) (mnw : ℕ) (w : ℚ) : ℕ :=
  splitsLoopAux w pmin mnw (mnw - 1) 2 - 2

/-- wexplore.py lines 94-121 (the per-walker loop is `max_n_clones_of`). -/
def calc_max_num_clones (ws : List ℚ) (pmin : ℚ) (mnw : ℕ) : List ℕ :=
  ws.map (max_n_clones_of pmin mnw)

/-- wexplore.py lines 489-493: `place_walkers` sets a leaf's `n_cloneable`
to `sum(self._calc_max_num_clones(leaf_weights))` whenever the leaf holds
at least one walker (otherwise the attribute keeps its default 0). -/
def leaf_n_cloneable (pmin : ℚ) (mnw : ℕ) (leafWeights : List ℚ) : ℕ :=
  if 0 < leafWeights.length then (calc_max_num_clones leafWeights pmin mnw).sum
  else 0

theorem splitsLoopAux_spec (w pmin : ℚ) (mnw : ℕ) :
    ∀ k s, mnw + 1 ≤ k + s →
      s ≤ splitsLoopAux w pmin mnw k s ∧
      ¬ (pmin ≤ w / (splitsLoopAux w pmin mnw k s : ℚ) ∧
          splitsLoopAux w pmin mnw k s ≤ mnw) ∧
      (∀ t, s ≤ t → t < splitsLoopAux w pmin mnw k s →
          pmin ≤ w / (t : ℚ) ∧ t ≤ mnw) := by
  intro k
  induction k with
  | zero =>
    intro s hs
    refine ⟨le_refl s, ?_, ?_⟩
    · rintro ⟨-, hle⟩
      simp only [splitsLoopAux] at hle
      omega
    · intro t h1 h2
      simp only [splitsLoopAux] at h2
      omega
  | succ k ih =>
    intro s hs
    by_cases hcond : pmin ≤ w / (s : ℚ) ∧ s ≤ mnw
    · rw [splitsLoopAux, if_pos hcond]
      obtain ⟨h1, h2, h3⟩ := ih (s + 1) (by omega)
      refine ⟨by omega, h2, ?_⟩
      intro t hst htlt
      rcases Nat.eq_or_lt_of_le hst with heq | hlt
      · rw [← heq]; exact hcond
      · exact h3 t (by omega) htlt
    · rw [splitsLoopAux, if_neg hcond]
      exact ⟨le_refl s, hcond, by intro t h1 h2; omega⟩

/-- The loop condition of `calc_max_num_clones` is antitone in `n_splits`
when the weight is nonnegative. -/
theorem splitOk_antitone {w pmin : ℚ} {mnw : ℕ} (hw : 0 ≤ w) {s t : ℕ}
    (hs : 1 ≤ s) (hst : s ≤ t)
    (ht : pmin ≤ w / (t : ℚ) ∧ t ≤ mnw) :
    pmin ≤ w / (s : ℚ) ∧ s ≤ mnw := by
  refine ⟨?_, by omega⟩
  have hs0 : (0 : ℚ) < (s : ℚ) := by exact_mod_cast hs
  have hstq : (s : ℚ) ≤ (t : ℚ) := by exact_mod_cast hst
  exact ht.1.trans (div_le_div_of_nonneg_left hw hs0 hstq)

/-- The per-walker loop computes the largest clone count `c` with
`w/(c+1) ≥ pmin` and `c+1 ≤ max_num_walkers` (and `0` when no such `c`
exists, matching `sSup ∅ = 0` on `ℕ`). -/
theorem max_n_clones_of_eq_sSup (pmin : ℚ) (mnw : ℕ) (w : ℚ)
    (hw : 0 < w) (hpmin : 0 < pmin) (hmnw : 1 ≤ mnw) :
    max_n_clones_of pmin mnw w
      = sSup {c : ℕ | pmin ≤ w / ((c : ℚ) + 1) ∧ c + 1 ≤ mnw} := by
  set S : Set ℕ := {c : ℕ | pmin ≤ w / ((c : ℚ) + 1) ∧ c + 1 ≤ mnw} with hS
  have hmemS : ∀ c : ℕ, c ∈ S ↔ (pmin ≤ w / ((c + 1 : ℕ) : ℚ) ∧ c + 1 ≤ mnw) := by
    intro c
    rw [hS]
    constructor
    · rintro ⟨h1, h2⟩; exact ⟨by push_cast; exact h1, h2⟩
    · rintro ⟨h1, h2⟩; exact ⟨by push_cast at h1; exact h1, h2⟩
  obtain ⟨hr2, hrfail, hrall⟩ :=
    splitsLoopAux_spec w pmin mnw (mnw - 1) 2 (by omega)
  set r := splitsLoopAux w pmin mnw (mnw - 1) 2 with hrdef
  by_cases h1 : pmin ≤ w / ((1 : ℕ) : ℚ) ∧ 1 ≤ mnw
  · -- at least one split is admissible; S has greatest element r - 2
    have hmem : (r - 2) ∈ S := by
      rw [hmemS]
      rcases Nat.eq_or_lt_of_le hr2 with heq | hlt
      · rw [show r - 2 + 1 = 1 from by omega]
        exact h1
      · rw [show r - 2 + 1 = r - 1 from by omega]
        exact hrall (r - 1) (by omega) (by omega)
    have hub : ∀ c ∈ S, c ≤ r - 2 := by
      intro c hc
      rw [hmemS] at hc
      by_contra hgt
      have hrc : r ≤ c + 1 := by omega
      exact hrfail (splitOk_antitone hw.le (by omega) hrc hc)
    have hbdd : BddAbove S := by
      refine ⟨mnw, ?_⟩
      intro c hc
      rw [hmemS] at hc
      omega
    have hne : S.Nonempty := by
      refine ⟨0, ?_⟩
      rw [hmemS]
      exact h1
    have : sSup S = r - 2 :=
      le_antisymm (csSup_le hne hub) (le_csSup hbdd hmem)
    rw [this]
    rfl
  · -- not even one split admissible: S is empty and the loop exits at once
    have hSempty : S = ∅ := by
      rw [Set.eq_empty_iff_forall_not_mem]
      intro c hc
      rw [hmemS] at hc
      exact h1 (splitOk_antitone hw.le (by omega) (by omega) hc)
    have hrtwo : r = 2 := by
      rcases Nat.eq_or_lt_of_le hr2 with heq | hlt
      · omega
      · exact absurd (splitOk_antitone hw.le (by omega) (by omega)
          (hrall 2 (le_refl 2) hlt)) h1
    rw [hSempty, csSup_empty]
    show r - 2 = ⊥
    rw [hrtwo]
    rfl

/-- C7: for every walker weight w > 0, with pmin > 0 and integer
max_num_walkers ≥ 1, `calc_max_num_clones` assigns that walker the
per-walker max clone count `max {c ≥ 0 : w/(c+1) ≥ pmin ∧ c+1 ≤
max_num_walkers}` (as `sSup` on ℕ, which is 0 when the set is empty),
and a leaf's `n_cloneable` set by `place_walkers` is the sum of these
counts over its walkers. -/
theorem c7_cloneable_counts (pmin : ℚ) (mnw : ℕ) (ws : List ℚ)
    (hpmin : 0 < pmin) (hmnw : 1 ≤ mnw) (hws : ∀ w ∈ ws, 0 < w) :
    (∀ w ∈ ws, max_n_clones_of pmin mnw w
        = sSup {c : ℕ | pmin ≤ w / ((c : ℚ) + 1) ∧ c + 1 ≤ mnw}) ∧
    leaf_n_cloneable pmin mnw ws
        = (ws.map (fun w =>
            sSup {c : ℕ | pmin ≤ w / ((c : ℚ) + 1) ∧ c + 1 ≤ mnw})).sum := by
  have hper : ∀ w ∈ ws, max_n_clones_of pmin mnw w
      = sSup {c : ℕ | pmin ≤ w / ((c : ℚ) + 1) ∧ c + 1 ≤ mnw} :=
    fun w hwmem => max_n_clones_of_eq_sSup pmin mnw w (hws w hwmem) hpmin hmnw
  refine ⟨hper, ?_⟩
  unfold leaf_n_cloneable calc_max_num_clones
  by_cases hlen : 0 < ws.length
  · rw [if_pos hlen]
    exact congrArg List.sum (List.map_congr_left hper)
  · have hnil : ws = [] := by
      cases ws with
      | nil => rfl
      | cons a t => simp at hlen
    rw [if_neg hlen, hnil]
    simp

/-- Witness for `c7_cloneable_counts` at a concrete input. -/
theorem c7_cloneable_counts_witness :
    (0 : ℚ) < 1/10 ∧ 1 ≤ 50 ∧ (∀ w ∈ [(2 : ℚ)/5], 0 < w) ∧
    ((∀ w ∈ [(2 : ℚ)/5], max_n_clones_of (1/10) 50 w
        = sSup {c : ℕ | 1/10 ≤ w / ((c : ℚ) + 1) ∧ c + 1 ≤ 50}) ∧
     leaf_n_cloneable (1/10) 50 [(2 : ℚ)/5]
        = ([(2 : ℚ)/5].map (fun w =>
            sSup {c : ℕ | 1/10 ≤ w / ((c : ℚ) + 1) ∧ c + 1 ≤ 50})).sum) :=
  ⟨by norm_num, by norm_num,
   by intro w hwmem; rw [List.mem_singleton] at hwmem; rw [hwmem]; norm_num,
   c7_cloneable_counts (1/10) 50 [(2 : ℚ)/5] (by norm_num) (by norm_num)
     (by intro w hwmem; rw [List.mem_singleton] at hwmem; rw [hwmem]; norm_num)⟩

/-! ## Region-tree state (wexplore.py lines 124-318)

Node identifiers are tuples of ints (Lean: `List ℕ`); the networkx node
attribute dict is modelled by `RegionNode`.  `add_node` (lines 193-198,
203-208, 273-279) always sets `image_idx`, `n_walkers`, `n_mergeable`,
`n_cloneable`, `balance`, `walker_idxs`; the keys `n_squashable` and
`n_possible_clones` are *not* set at node creation — they are created
dynamically by `clear_walkers` (lines 397-398) — hence `Option ℕ`,
`none` meaning "key absent from the attribute dict". -/
structure RegionNode where
  image_idx : ℕ
  n_walkers : ℕ
  walker_idxs : List ℕ
  n_mergeable : ℕ
  n_cloneable : ℕ
  balance : ℤ
  n_squashable : Option ℕ
  n_possible_clones : Option ℕ
  deriving DecidableEq, Repr, Inhabited

/-- The mutable state of a `RegionTree` (graph nodes and edges, the image
table, and the per-cycle walker tables).  `α` is the image type supplied
by the external distance metric. -/
structure RegionTreeData (α : Type) where
  n_levels : ℕ
  nodes : List (List ℕ × RegionNode)
  edges : List (List ℕ × List ℕ)
  images : List α
  walker_assignments : List (List ℕ)
  walker_weights : List ℚ
  deriving DecidableEq

/-- Python tuple comparison (lexicographic on the int components), used by
`children_ids.sort()` at wexplore.py line 289. -/
def idLeB : List ℕ → List ℕ → Bool
  | [], _ => true
  | _ :: _, [] => false
  | a :: as, b :: bs => if a < b then true else if b < a then false else idLeB as bs

instance idLeB_decRel : DecidableRel (fun x y : List ℕ => idLeB x y = true) :=
  fun _ _ => inferInstance

/-- wexplore.py lines 286-290: the children of a node are its graph
successors, sorted ascending by identifier. -/
def children {α : Type} (t : RegionTreeData α) (p : List ℕ) : List (List ℕ) :=
  List.insertionSort (fun x y => idLeB x y = true)
    ((t.edges.filter (fun e => e.1 == p)).map (fun e => e.2))

/-- Attribute lookup `self.node[nid]`; all claims below apply it to node
ids present in the tree, so the default is never relied upon. -/
def lookupNode {α : Type} (t : RegionTreeData α) (nid : List ℕ) : RegionNode :=
  ((t.nodes.filter (fun p => p.1 == nid)).map (fun p => p.2)).getD 0 default

/-! ## clear_walkers (wexplore.py lines 385-399)

The body resets `_walker_assignments`, `_walker_weights` and then, for
every node, sets `n_walkers = 0`, `walker_idxs = []`, and the keys
`n_squashable` and `n_possible_clones` to 0 and `balance` to 0.  It does
NOT touch `n_mergeable` or `n_cloneable` (the keys written by
`place_walkers`); lines 397-398 write two different keys. -/
def clear_node (nd : RegionNode) : RegionNode :=
  { nd with n_walkers := 0, walker_idxs := [],
            n_squashable := some 0, n_possible_clones := some 0, balance := 0 }

def clear_walkers {α : Type} (t : RegionTreeData α) : RegionTreeData α :=
  { t with walker_assignments := [], walker_weights := [],
           nodes := t.nodes.map (fun p => (p.1, clear_node p.2)) }

/-- A reachable tree state: one level, one leaf holding one walker of
weight 2/5 with `pmin = 1/10` and `max_num_walkers = 50`, so
`place_walkers` has set `n_cloneable = 3` on the leaf and the root
(`calc_max_num_clones([2/5], 1/10, 50) = [3]`). -/
def t6 : RegionTreeData ℕ :=
  { n_levels := 1
    nodes := [([], { image_idx := 0, n_walkers := 1, walker_idxs := [0],
                     n_mergeable := 0, n_cloneable := 3, balance := 0,
                     n_squashable := none, n_possible_clones := none }),
              ([0], { image_idx := 0, n_walkers := 1, walker_idxs := [0],
                      n_mergeable := 0, n_cloneable := 3, balance := 0,
                      n_squashable := none, n_possible_clones := none })]
    edges := [([], [0])]
    images := [5]
    walker_assignments := [[0]]
    walker_weights := [2/5] }

/-- C10 groundwork / C3 groundwork: the names bound at the top level of
the module wexplore.py (imports at lines 1-12 and the module-level
definitions), and the methods defined on class RegionTree. -/
def wexplore_module_names : List String :=
  ["math", "rand", "it", "namedtuple", "copy", "deepcopy", "np", "nx",
   "Resampler", "MultiCloneMergeDecision", "RegionTreeError",
   "calc_squashable_walkers_single_method",
   "decide_merge_groups_single_method",
   "calc_max_num_clones", "RegionTree", "WExploreResampler"]

/-- The methods defined on class RegionTree (wexplore.py lines 124-1293),
plus the inherited-property names used below; relevant here: the class
defines `_decide_settle_balance` (line 1164) but no
`_decide_settle_balances`, and no `settle_balances`. -/
def region_tree_method_names : List String :=
  ["merge_method", "distance", "images", "max_n_regions", "n_levels",
   "max_region_sizes", "max_num_walkers", "min_num_walkers", "pmin", "pmax",
   "walker_assignments", "walker_weights", "regions", "add_child", "children",
   "level_nodes", "leaf_nodes", "branch_tree", "assign", "clear_walkers",
   "place_walkers", "_max_n_merges", "_calc_mergeable_walkers",
   "_calc_max_num_clones", "_propagate_and_balance_shares",
   "_dispense_parental_shares", "_dispense_debit_shares",
   "_dispense_credit_shares", "_gen_best_donation", "_balance_children_shares",
   "_find_best_donation_pair", "_calc_share_donation", "_decide_merge_leaf",
   "solve_merge_groupings", "_decide_clone_leaf", "_decide_settle_balance",
   "merge_leaf", "clone_leaf", "balance_tree"]

/-! ## balance_tree, post-BFS phase (wexplore.py lines 1261-1293)

After the BFS loop, the code reads the leaf balances and raises
`RegionTreeError` when their sum differs from `delta_walkers`
(lines 1263-1267).  When the sum matches, the next statement (line 1270)
calls `self._decide_settle_balances()`, an attribute the class does not
define (the method is named `_decide_settle_balance`), so Python raises
`AttributeError` there. -/
def balance_tree_post_bfs (leaf_balances : List ℤ) (delta_walkers : ℤ) :
    Except PyError Unit :=
  if leaf_balances.sum ≠ delta_walkers then .error .regionTreeError
  else if region_tree_method_names.contains "_decide_settle_balances" then
    .ok ()
  else .error .attributeError

/-! ## _dispense_parental_shares and friends (wexplore.py lines 600-743)

In `_dispense_debit_shares` the local `remaining_balance` is first
assigned at line 673 but first *read* in the loop guard at line 653, so
the guard raises `UnboundLocalError` before any iteration (the dict
comprehension at lines 647-648 runs first and only reads node
attributes).  `_dispense_credit_shares` has the same structure (guard at
line 704, first assignment at line 724).  In
`_dispense_parental_shares`, the local `children_shares` is assigned only
in the `len > 1` branches, so the `return children_shares` at line 638
raises `UnboundLocalError` on the single-child path (after the child's
balance has already been set at line 617) and on the zero-balance and
childless paths. -/
def dispense_debit_shares {α : Type} (t : RegionTreeData α) (pb : ℤ)
    (children_ids : List (List ℕ)) : Except PyError Unit :=
  .error .unboundLocalError

def dispense_credit_shares {α : Type} (t : RegionTreeData α) (pb : ℤ)
    (children_ids : List (List ℕ)) : Except PyError Unit :=
  .error .unboundLocalError

/-- Set `self.node[nid]['balance'] = b` (line 617). -/
def set_balance {α : Type} (t : RegionTreeData α) (nid : List ℕ) (b : ℤ) :
    RegionTreeData α :=
  { t with
    nodes :=
      t.nodes.map fun p =>
        if p.1 = nid then (p.1, { p.2 with balance := b }) else p }

/-- wexplore.py lines 600-638; returns the state after any mutation the
body performed, paired with the outcome of the call. -/
def dispense_parental_shares {α : Type} (t : RegionTreeData α) (pb : ℤ)
    (children_ids : List (List ℕ)) :
    RegionTreeData α × Except PyError Unit :=
  if children_ids.length = 1 then
    -- line 617 mutates the child's balance, then line 638 returns the
    -- unassigned local `children_shares`
    (set_balance t (children_ids.getD 0 []) pb, .error .unboundLocalError)
  else if 1 < children_ids.length then
    if pb < 0 then (t, dispense_debit_shares t pb children_ids)
    else if 0 < pb then (t, dispense_credit_shares t pb children_ids)
    else (t, .error .unboundLocalError)   -- pb = 0: falls through to line 638
  else (t, .error .unboundLocalError)     -- no children: falls through to line 638

/-- A tree with a root and a single child, used as the concrete input for
the single-child dispensation path. -/
def t4 : RegionTreeData ℕ :=
  { n_levels := 1
    nodes := [([], { image_idx := 0, n_walkers := 2, walker_idxs := [0, 1],
                     n_mergeable := 0, n_cloneable := 0, balance := 3,
                     n_squashable := some 0, n_possible_clones := some 0 }),
              ([0], { image_idx := 0, n_walkers := 2, walker_idxs := [0, 1],
                      n_mergeable := 0, n_cloneable := 0, balance := 0,
                      n_squashable := some 0, n_possible_clones := some 0 })]
    edges := [([], [0])]
    images := [5]
    walker_assignments := [[0], [0]]
    walker_weights := [1/10, 1/10] }

/-- A tree with two children whose combined capacity to pay
(`n_squashable` = 1 each) is less than the debit |−3|. -/
def t5 : RegionTreeData ℕ :=
  { n_levels := 1
    nodes := [([], { image_idx := 0, n_walkers := 4, walker_idxs := [0, 1, 2, 3],
                     n_mergeable := 2, n_cloneable := 0, balance := -3,
                     n_squashable := some 2, n_possible_clones := some 0 }),
              ([0], { image_idx := 0, n_walkers := 2, walker_idxs := [0, 1],
                      n_mergeable := 1, n_cloneable := 0, balance := 0,
                      n_squashable := some 1, n_possible_clones := some 0 }),
              ([1], { image_idx := 1, n_walkers := 2, walker_idxs := [2, 3],
                      n_mergeable := 1, n_cloneable := 0, balance := 0,
                      n_squashable := some 1, n_possible_clones := some 0 })]
    edges := [([], [0]), ([], [1])]
    images := [5, 9]
    walker_assignments := [[0], [0], [1], [1]]
    walker_weights := [1/10, 1/10, 1/10, 1/10] }

/-! ## place_walkers, mergeable accounting (wexplore.py lines 467-485, 564-571)

For each leaf holding more than one walker, `place_walkers` calls
`self._calc_mergeable_walkers(leaf_weights)`, whose 'single' branch
(line 567) evaluates the global name
`calc_mergeable_walkers_single_method` — a name bound nowhere in the
module (the defined function is `calc_squashable_walkers_single_method`),
so Python raises `NameError`. -/
def calc_mergeable_walkers (merge_method : String) (ws : List ℚ) (pmax : ℚ) :
    Except PyError ℤ :=
  if merge_method = "single" then
    if wexplore_module_names.contains "calc_mergeable_walkers_single_method" then
      .ok (calc_squashable_walkers_single_method ws pmax)
    else .error .nameError
  else .error .valueError

/-- The per-leaf loop of lines 467-485: for each leaf (given by its list
of walker weights, in `leaf_nodes()` order) with `n_walkers > 1`, compute
its `n_mergeable`; leaves with at most one walker keep the default 0.  A
raised exception aborts the loop. -/
def place_walkers_mergeable_pass (merge_method : String) (pmax : ℚ) :
    List (List ℚ) → Except PyError (List ℤ)
  | [] => .ok []
  | leaf :: rest =>
    if 1 < leaf.length then
      match calc_mergeable_walkers merge_method leaf pmax with
      | .error e => .error e
      | .ok n =>
        match place_walkers_mergeable_pass merge_method pmax rest with
        | .error e => .error e
        | .ok ns => .ok (n :: ns)
    else
      match place_walkers_mergeable_pass merge_method pmax rest with
      | .error e => .error e
      | .ok ns => .ok (0 :: ns)

theorem calc_mergeable_single_nameError (ws : List ℚ) (pmax : ℚ) :
    calc_mergeable_walkers "single" ws pmax = .error .nameError := by
  have hc : wexplore_module_names.contains
      "calc_mergeable_walkers_single_method" = false := by decide
  unfold calc_mergeable_walkers
  rw [if_pos rfl, hc]
  simp

/-- C3: after the breadth-first balance propagation completes, the
post-BFS phase of `balance_tree` raises `RegionTreeError` if and only if
the leaf balances do not sum to `delta_walkers` (when they do sum
correctly, the phase instead fails with `AttributeError` at the call to
the misspelled `_decide_settle_balances`, which is not a
`RegionTreeError`). -/
theorem c3_balance_check_iff (bs : List ℤ) (d : ℤ) :
    balance_tree_post_bfs bs d = .error .regionTreeError ↔ bs.sum ≠ d := by
  have hc : region_tree_method_names.contains
      "_decide_settle_balances" = false := by decide
  unfold balance_tree_post_bfs
  rw [hc]
  by_cases h : bs.sum = d
  · simp [h]
  · simp [h]

/-- C4: on the single-child path, `_dispense_parental_shares` does set the
child's balance to the whole parental balance, but it does not return
normally: the trailing `return children_shares` reads a local that the
single-child branch never assigned, raising `UnboundLocalError`. -/
theorem c4_single_child_bug :
    dispense_parental_shares t4 5 [[0]]
      = (set_balance t4 [0] 5, Except.error PyError.unboundLocalError) ∧
    (lookupNode (dispense_parental_shares t4 5 [[0]]).1 [0]).balance = 5 := by
  constructor
  · rfl
  · rfl

/-- C5: on a debit whose size exceeds the children's combined capacity,
`_dispense_debit_shares` raises `UnboundLocalError` at the loop guard
(line 653) before any capacity check; the error is not the
`RegionTreeError` the claim requires (even the written, unreachable
shortfall check at line 682 raises `ValueError`). -/
theorem c5_debit_error_kind :
    dispense_debit_shares t5 (-3) [[0], [1]]
      = Except.error PyError.unboundLocalError ∧
    (Except.error PyError.unboundLocalError : Except PyError Unit)
      ≠ Except.error PyError.regionTreeError := by
  exact ⟨rfl, by simp⟩

/-- C6: `clear_walkers` leaves `n_cloneable` (and `n_mergeable`) at their
pre-call values — here the leaf keeps `n_cloneable = 3` instead of being
reset to 0 — because lines 397-398 assign the different keys
`n_squashable`/`n_possible_clones`; the node set, edges and image table
are unchanged, and `n_walkers`, `walker_idxs`, `balance` are reset. -/
theorem c6_clear_walkers_bug :
    (lookupNode (clear_walkers t6) [0]).n_cloneable = 3 ∧
    ¬ (lookupNode (clear_walkers t6) [0]).n_cloneable = 0 ∧
    (lookupNode (clear_walkers t6) [0]).n_walkers = 0 ∧
    (lookupNode (clear_walkers t6) [0]).walker_idxs = [] ∧
    (lookupNode (clear_walkers t6) [0]).balance = 0 ∧
    (clear_walkers t6).nodes.map (fun p => p.1) = t6.nodes.map (fun p => p.1) ∧
    (clear_walkers t6).edges = t6.edges ∧
    (clear_walkers t6).images = t6.images := by
  refine ⟨rfl, by decide, rfl, rfl, rfl, rfl, rfl, rfl⟩

/-- C10: whenever some leaf holds two or more walkers, the mergeable
accounting pass of `place_walkers` raises `NameError`, because the
'single' dispatch invokes the undefined module-level name
`calc_mergeable_walkers_single_method`. -/
theorem c10_place_walkers_nameError (pmax : ℚ) (leaves : List (List ℚ))
    (h : ∃ leaf ∈ leaves, 2 ≤ leaf.length) :
    place_walkers_mergeable_pass "single" pmax leaves
      = .error .nameError := by
  induction leaves with
  | nil => simp at h
  | cons leaf rest ih =>
    unfold place_walkers_mergeable_pass
    rcases h with ⟨l, hl, hlen⟩
    rcases List.mem_cons.1 hl with heq | hmem
    · subst heq
      rw [if_pos (by omega), calc_mergeable_single_nameError]
    · by_cases hfirst : 1 < leaf.length
      · rw [if_pos hfirst, calc_mergeable_single_nameError]
      · rw [if_neg hfirst, ih ⟨l, hmem, hlen⟩]

/-- Witness for `c10_place_walkers_nameError` at a concrete input. -/
theorem c10_place_walkers_nameError_witness :
    (∃ leaf ∈ [[(1 : ℚ)/10, 1/10]], 2 ≤ leaf.length) ∧
    place_walkers_mergeable_pass "single" (1/2) [[(1 : ℚ)/10, 1/10]]
      = .error .nameError :=
  ⟨⟨[(1 : ℚ)/10, 1/10], by simp, by simp⟩,
   c10_place_walkers_nameError (1/2) [[(1 : ℚ)/10, 1/10]]
     ⟨[(1 : ℚ)/10, 1/10], by simp, by simp⟩⟩

/-! ## _decide_clone_leaf, clone-assignment loop (wexplore.py lines 1103-1160)

Each iteration computes, for every cloneable candidate,

    child_weight = weight / (walkers_num_clones[walker_idx] + 1)
    if child_weight < self.pmin: child_weight = -1

and then picks `cloneable_walker_idxs[np.argsort(child_weights)[-1]]`.
NumPy's argsort is stable on the small candidate arrays involved
(insertion sort), so the last entry of the argsort is the *last* index
attaining the maximum; `argmaxLast` reproduces that selection. -/
def argmaxLast : List ℚ → ℕ
  | [] => 0
  | x :: xs =>
    match xs with
    | [] => 0
    | _ :: _ => if xs.getD (argmaxLast xs) 0 < x then 0 else argmaxLast xs + 1

theorem argmaxLast_cons_cons (x y : ℚ) (ys : List ℚ) :
    argmaxLast (x :: y :: ys)
      = if (y :: ys).getD (argmaxLast (y :: ys)) 0 < x then 0
        else argmaxLast (y :: ys) + 1 := rfl

theorem argmaxLast_lt_length : ∀ l : List ℚ, l ≠ [] → argmaxLast l < l.length := by
  intro l
  induction l with
  | nil => intro h; exact absurd rfl h
  | cons x xs ih =>
    intro _
    cases xs with
    | nil => simp [argmaxLast]
    | cons y ys =>
      rw [argmaxLast_cons_cons]
      by_cases hcmp : (y :: ys).getD (argmaxLast (y :: ys)) 0 < x
      · rw [if_pos hcmp]; simp
      · rw [if_neg hcmp]
        have := ih (by simp)
        simpa using Nat.succ_lt_succ this

theorem argmaxLast_ge : ∀ (l : List ℚ) (j : ℕ), j < l.length →
    l.getD j 0 ≤ l.getD (argmaxLast l) 0 := by
  intro l
  induction l with
  | nil => intro j hj; simp at hj
  | cons x xs ih =>
    intro j hj
    cases xs with
    | nil =>
      have hj0 : j = 0 := by simpa using hj
      rw [hj0]
      exact le_refl _
    | cons y ys =>
      rw [argmaxLast_cons_cons]
      by_cases hcmp : (y :: ys).getD (argmaxLast (y :: ys)) 0 < x
      · rw [if_pos hcmp]
        cases j with
        | zero => simp
        | succ j' =>
          have hj' : j' < (y :: ys).length := by simpa using hj
          have := ih j' hj'
          simp only [List.getD_cons_succ, List.getD_cons_zero]
          exact this.trans hcmp.le
      · rw [if_neg hcmp]
        cases j with
        | zero =>
          simp only [List.getD_cons_succ, List.getD_cons_zero]
          exact le_of_not_lt hcmp
        | succ j' =>
          have hj' : j' < (y :: ys).length := by simpa using hj
          simpa using ih j' hj'

/-- wexplore.py lines 1109-1145: the per-candidate effective child
weights of one loop iteration (`-1` marks walkers whose current child
weight is below `pmin`).  A candidate is a pair (walker index, weight). -/
def child_weights (pmin : ℚ) (cands : List (ℕ × ℚ)) (clones : List ℕ) :
    List ℚ :=
  cands.map fun p =>
    let cw := p.2 / ((clones.getD p.1 0 : ℚ) + 1)
    if cw < pmin then -1 else cw

/-- wexplore.py lines 1109-1156: one iteration of the clone-assignment
loop — compute the child weights, choose the candidate selected by
`np.argsort(child_weights)[-1]` and give it one more clone. -/
def clone_step (pmin : ℚ) (cands : List (ℕ × ℚ)) (clones : List ℕ) :
    List ℕ :=
  let cws := child_weights pmin cands clones
  let chosen := (cands.getD (argmaxLast cws) (0, 0)).1
  clones.set chosen (clones.getD chosen 0 + 1)

/-- wexplore.py lines 1103-1160: the loop runs until `clones_left`
(initially the leaf balance) reaches 0, one clone per iteration. -/
def decide_clone_loop (pmin : ℚ) (cands : List (ℕ × ℚ)) :
    ℕ → List ℕ → List ℕ
  | 0, clones => clones
  | n + 1, clones => decide_clone_loop pmin cands n (clone_step pmin cands clones)

/-- Stated from claim C2's words (for comparison with the code): the
effective child weight is `w / (clones[k] + 2)` — "the weight each child
would have if one more clone were performed" — with sub-`pmin`
candidates marked ineligible. -/
def child_weights_claimC2 (pmin : ℚ) (cands : List (ℕ × ℚ))
    (clones : List ℕ) : List ℚ :=
  cands.map fun p =>
    let cw := p.2 / ((clones.getD p.1 0 : ℚ) + 2)
    if cw < pmin then -1 else cw

/-- One iteration as claim C2 describes it. -/
def clone_step_claimC2 (pmin : ℚ) (cands : List (ℕ × ℚ))
    (clones : List ℕ) : List ℕ :=
  let cws := child_weights_claimC2 pmin cands clones
  let chosen := (cands.getD (argmaxLast cws) (0, 0)).1
  clones.set chosen (clones.getD chosen 0 + 1)

/-- The clone-assignment loop as claim C2 describes it. -/
def decide_clone_loop_claimC2 (pmin : ℚ) (cands : List (ℕ × ℚ)) :
    ℕ → List ℕ → List ℕ
  | 0, clones => clones
  | n + 1, clones =>
    decide_clone_loop_claimC2 pmin cands n (clone_step_claimC2 pmin cands clones)

/-- C2 counterexample: with candidates (walker 0, weight 1/2) and
(walker 1, weight 3/10), pmin = 1/100 and a balance of 2, the code
(dividing by clones+1) assigns one clone to each walker, while the
claim's rule (dividing by clones+2) assigns both clones to walker 0; no
ties arise at any step. -/
theorem c2_effective_weight_counterexample :
    decide_clone_loop (1/100) [(0, 1/2), (1, 3/10)] 2 [0, 0] = [1, 1] ∧
    decide_clone_loop_claimC2 (1/100) [(0, 1/2), (1, 3/10)] 2 [0, 0] = [2, 0] := by
  constructor
  · norm_num [decide_clone_loop, clone_step, child_weights, argmaxLast]
  · norm_num [decide_clone_loop_claimC2, clone_step_claimC2,
      child_weights_claimC2, argmaxLast]

/-- C2 (amended): on each iteration of the clone-assignment loop in
`_decide_clone_leaf`, every candidate's effective child weight is
computed as `w / (clones[k] + 1)` (the weight of each child under the
clones already assigned), candidates whose effective child weight falls
below `pmin` are marked ineligible (value `-1`), and a candidate whose
effective child weight is maximal receives the next clone (in particular
an eligible candidate is selected whenever one exists). -/
theorem c2_clone_assignment_amended (pmin : ℚ) (cands : List (ℕ × ℚ))
    (clones : List ℕ) (i : ℕ) (hi : i < cands.length) :
    (child_weights pmin cands clones).getD i 0
      ≤ (child_weights pmin cands clones).getD
          (argmaxLast (child_weights pmin cands clones)) 0 ∧
    (pmin ≤ (child_weights pmin cands clones).getD i 0 →
      pmin ≤ (child_weights pmin cands clones).getD
          (argmaxLast (child_weights pmin cands clones)) 0) ∧
    clone_step pmin cands clones
      = clones.set
          ((cands.getD (argmaxLast (child_weights pmin cands clones)) (0, 0)).1)
          (clones.getD
            ((cands.getD (argmaxLast (child_weights pmin cands clones)) (0, 0)).1) 0
            + 1) := by
  have hlen : (child_weights pmin cands clones).length = cands.length := by
    simp [child_weights]
  have h1 := argmaxLast_ge (child_weights pmin cands clones) i (by omega)
  exact ⟨h1, fun h => h.trans h1, rfl⟩

/-- Witness for `c2_clone_assignment_amended` at a concrete input. -/
theorem c2_clone_assignment_amended_witness :
    0 < [((0 : ℕ), (1 : ℚ)/2)].length ∧
    ((child_weights (1/100) [((0 : ℕ), (1 : ℚ)/2)] [0]).getD 0 0
      ≤ (child_weights (1/100) [((0 : ℕ), (1 : ℚ)/2)] [0]).getD
          (argmaxLast (child_weights (1/100) [((0 : ℕ), (1 : ℚ)/2)] [0])) 0 ∧
    ((1 : ℚ)/100 ≤ (child_weights (1/100) [((0 : ℕ), (1 : ℚ)/2)] [0]).getD 0 0 →
      (1 : ℚ)/100 ≤ (child_weights (1/100) [((0 : ℕ), (1 : ℚ)/2)] [0]).getD
          (argmaxLast (child_weights (1/100) [((0 : ℕ), (1 : ℚ)/2)] [0])) 0) ∧
    clone_step (1/100) [((0 : ℕ), (1 : ℚ)/2)] [0]
      = [0].set
          (([((0 : ℕ), (1 : ℚ)/2)].getD
            (argmaxLast (child_weights (1/100) [((0 : ℕ), (1 : ℚ)/2)] [0])) (0, 0)).1)
          ([0].getD
            (([((0 : ℕ), (1 : ℚ)/2)].getD
              (argmaxLast (child_weights (1/100) [((0 : ℕ), (1 : ℚ)/2)] [0])) (0, 0)).1) 0
            + 1)) :=
  ⟨by simp,
   c2_clone_assignment_amended (1/100) [((0 : ℕ), (1 : ℚ)/2)] [0] 0 (by simp)⟩

/-! ## assign (wexplore.py lines 320-383)

At each level the code computes the distance from the state's image to
every child's image (`np.argmin` then returns the FIRST index attaining
the minimum, which breaks ties by lowest child index, children being
sorted ascending), records the minimal distance, and descends into the
selected child.  The per-call `dist_cache` memoizes the pure distance
function by `image_idx` and is therefore semantically invisible here,
where `dist` is a function. -/
def argminFirst : List ℚ → ℕ
  | [] => 0
  | x :: xs =>
    match xs with
    | [] => 0
    | _ :: _ => if x ≤ xs.getD (argminFirst xs) 0 then 0 else argminFirst xs + 1

theorem argminFirst_cons_cons (x y : ℚ) (ys : List ℚ) :
    argminFirst (x :: y :: ys)
      = if x ≤ (y :: ys).getD (argminFirst (y :: ys)) 0 then 0
        else argminFirst (y :: ys) + 1 := rfl

theorem argminFirst_lt_length : ∀ l : List ℚ, l ≠ [] → argminFirst l < l.length := by
  intro l
  induction l with
  | nil => intro h; exact absurd rfl h
  | cons x xs ih =>
    intro _
    cases xs with
    | nil => simp [argminFirst]
    | cons y ys =>
      rw [argminFirst_cons_cons]
      by_cases hcmp : x ≤ (y :: ys).getD (argminFirst (y :: ys)) 0
      · rw [if_pos hcmp]; simp
      · rw [if_neg hcmp]
        have := ih (by simp)
        simpa using Nat.succ_lt_succ this

theorem argminFirst_le : ∀ (l : List ℚ) (j : ℕ), j < l.length →
    l.getD (argminFirst l) 0 ≤ l.getD j 0 := by
  intro l
  induction l with
  | nil => intro j hj; simp at hj
  | cons x xs ih =>
    intro j hj
    cases xs with
    | nil =>
      have hj0 : j = 0 := by simpa using hj
      rw [hj0]
      exact le_refl _
    | cons y ys =>
      rw [argminFirst_cons_cons]
      by_cases hcmp : x ≤ (y :: ys).getD (argminFirst (y :: ys)) 0
      · rw [if_pos hcmp]
        cases j with
        | zero => simp
        | succ j' =>
          have hj' : j' < (y :: ys).length := by simpa using hj
          simp only [List.getD_cons_succ, List.getD_cons_zero]
          exact hcmp.trans (ih j' hj')
      · rw [if_neg hcmp]
        cases j with
        | zero =>
          simp only [List.getD_cons_succ, List.getD_cons_zero]
          exact (lt_of_not_le hcmp).le
        | succ j' =>
          have hj' : j' < (y :: ys).length := by simpa using hj
          simpa using ih j' hj'

theorem argminFirst_first : ∀ (l : List ℚ) (j : ℕ), j < argminFirst l →
    l.getD (argminFirst l) 0 < l.getD j 0 := by
  intro l
  induction l with
  | nil => intro j hj; simp [argminFirst] at hj
  | cons x xs ih =>
    intro j hj
    cases xs with
    | nil => simp [argminFirst] at hj
    | cons y ys =>
      rw [argminFirst_cons_cons] at hj ⊢
      by_cases hcmp : x ≤ (y :: ys).getD (argminFirst (y :: ys)) 0
      · rw [if_pos hcmp] at hj
        omega
      · rw [if_neg hcmp] at hj ⊢
        cases j with
        | zero =>
          simp only [List.getD_cons_succ, List.getD_cons_zero]
          exact lt_of_not_le hcmp
        | succ j' =>
          have hj' : j' < argminFirst (y :: ys) := by omega
          simpa using ih j' hj'

/-- The image stored on a node (`self.node[level_node]['image_idx']`
resolved through the image table). -/
def image_of {α : Type} [Inhabited α] (t : RegionTreeData α) (nid : List ℕ) : α :=
  t.images.getD (lookupNode t nid).image_idx default

/-- The distances from the state's image to every child image at the
current node (wexplore.py lines 338-369). -/
def levelDists {α : Type} [Inhabited α] (t : RegionTreeData α)
    (dist : α → α → ℚ) (state_image : α) (nid : List ℕ) : List ℚ :=
  (children t nid).map fun c => dist state_image (image_of t c)

/-- The level loop of `assign` (wexplore.py lines 333-381). -/
def assignGo {α : Type} [Inhabited α] (t : RegionTreeData α)
    (dist : α → α → ℚ) (state_image : α) : ℕ → List ℕ → List ℕ × List ℚ
  | 0, _ => ([], [])
  | l + 1, nid =>
    let ds := levelDists t dist state_image nid
    let j := argminFirst ds
    let rest := assignGo t dist state_image l ((children t nid).getD j [])
    (j :: rest.1, ds.getD j 0 :: rest.2)

/-- wexplore.py lines 320-383: returns the per-level selected child
indices and the per-level minimal distances, starting from the root. -/
def assign {α : Type} [Inhabited α] (t : RegionTreeData α)
    (dist : α → α → ℚ) (state_image : α) : List ℕ × List ℚ :=
  assignGo t dist state_image t.n_levels []

/-- Follow a list of per-level child positions down from a node. -/
def descendPath {α : Type} (t : RegionTreeData α) : List ℕ → List ℕ → List ℕ
  | nid, [] => nid
  | nid, j :: rest => descendPath t ((children t nid).getD j []) rest

/-- `i` selects, among the distances `ds`, a minimal entry, and is the
lowest index attaining the minimum (ties broken by lowest child index). -/
def IsNearestSelection (ds : List ℚ) (i : ℕ) : Prop :=
  i < ds.length ∧ (∀ j, j < ds.length → ds.getD i 0 ≤ ds.getD j 0) ∧
  (∀ j, j < i → ds.getD i 0 < ds.getD j 0)

theorem assignGo_spec {α : Type} [Inhabited α] (t : RegionTreeData α)
    (dist : α → α → ℚ) (img : α) :
    ∀ (L : ℕ) (nid : List ℕ),
      (∀ ℓ, ℓ < L →
        children t (descendPath t nid ((assignGo t dist img L nid).1.take ℓ)) ≠ []) →
      (assignGo t dist img L nid).1.length = L ∧
      (assignGo t dist img L nid).2.length = L ∧
      ∀ ℓ, ℓ < L →
        IsNearestSelection
          (levelDists t dist img
            (descendPath t nid ((assignGo t dist img L nid).1.take ℓ)))
          ((assignGo t dist img L nid).1.getD ℓ 0) ∧
        (assignGo t dist img L nid).2.getD ℓ 0
          = (levelDists t dist img
              (descendPath t nid ((assignGo t dist img L nid).1.take ℓ))).getD
              ((assignGo t dist img L nid).1.getD ℓ 0) 0 := by
  intro L
  induction L with
  | zero =>
    intro nid _
    refine ⟨rfl, rfl, ?_⟩
    intro ℓ hℓ
    omega
  | succ L ih =>
    intro nid h
    have hunfold : assignGo t dist img (L + 1) nid
        = ((argminFirst (levelDists t dist img nid))
             :: (assignGo t dist img L
                  ((children t nid).getD
                    (argminFirst (levelDists t dist img nid)) [])).1,
           (levelDists t dist img nid).getD
             (argminFirst (levelDists t dist img nid)) 0
             :: (assignGo t dist img L
                  ((children t nid).getD
                    (argminFirst (levelDists t dist img nid)) [])).2) := rfl
    set ds := levelDists t dist img nid with hds
    set j := argminFirst ds with hj
    set next := (children t nid).getD j [] with hnext
    have hdescend : ∀ p : List ℕ, descendPath t nid (j :: p) = descendPath t next p := by
      intro p
      rw [hnext]
      rfl
    have hd0 : descendPath t nid (((assignGo t dist img (L + 1) nid).1).take 0) = nid := by
      rfl
    have hne : ds ≠ [] := by
      have h0 := h 0 (by omega)
      rw [hd0] at h0
      intro hdsnil
      apply h0
      have hmap : (children t nid).map (fun c => dist img (image_of t c)) = [] := by
        rw [hds] at hdsnil
        exact hdsnil
      exact List.map_eq_nil_iff.mp hmap
    have hnexthyp : ∀ ℓ, ℓ < L →
        children t (descendPath t next ((assignGo t dist img L next).1.take ℓ)) ≠ [] := by
      intro ℓ hℓ
      have hh := h (ℓ + 1) (by omega)
      have htake : (((assignGo t dist img (L + 1) nid).1).take (ℓ + 1))
          = j :: ((assignGo t dist img L next).1.take ℓ) := by
        rw [hunfold]
        rfl
      rw [htake, hdescend] at hh
      exact hh
    obtain ⟨hlen1, hlen2, hall⟩ := ih next hnexthyp
    rw [hunfold]
    refine ⟨by simpa using hlen1, by simpa using hlen2, ?_⟩
    intro ℓ hℓ
    cases ℓ with
    | zero =>
      constructor
      · refine ⟨argminFirst_lt_length ds hne, ?_, ?_⟩
        · intro i hi
          exact argminFirst_le ds i hi
        · intro i hi
          exact argminFirst_first ds i hi
      · rfl
    | succ ℓ' =>
      have hℓ' : ℓ' < L := by omega
      have htake : ((j :: (assignGo t dist img L next).1).take (ℓ' + 1))
          = j :: ((assignGo t dist img L next).1.take ℓ') := rfl
      have hgetD : ((j :: (assignGo t dist img L next).1).getD (ℓ' + 1) 0)
          = (assignGo t dist img L next).1.getD ℓ' 0 := rfl
      have hgetD2 : ((ds.getD j 0 :: (assignGo t dist img L next).2).getD (ℓ' + 1) 0)
          = (assignGo t dist img L next).2.getD ℓ' 0 := rfl
      rw [htake, hgetD, hgetD2, hdescend]
      exact hall ℓ' hℓ'

/-- C8: for every state image and tree, `assign` performs a top-down
descent that at each level selects the child whose image has the minimum
distance to the state's image, breaking ties by the lowest child index,
and returns the per-level selected child indices together with the
per-level minimum distances (hypothesis: every node visited during the
descent has at least one child, as every non-leaf node of a region tree
does). -/
theorem c8_assign_nearest {α : Type} [Inhabited α] (t : RegionTreeData α)
    (dist : α → α → ℚ) (img : α)
    (hch : ∀ ℓ, ℓ < t.n_levels →
      children t (descendPath t [] ((assign t dist img).1.take ℓ)) ≠ []) :
    (assign t dist img).1.length = t.n_levels ∧
    (assign t dist img).2.length = t.n_levels ∧
    ∀ ℓ, ℓ < t.n_levels →
      IsNearestSelection
        (levelDists t dist img (descendPath t [] ((assign t dist img).1.take ℓ)))
        ((assign t dist img).1.getD ℓ 0) ∧
      (assign t dist img).2.getD ℓ 0
        = (levelDists t dist img
            (descendPath t [] ((assign t dist img).1.take ℓ))).getD
            ((assign t dist img).1.getD ℓ 0) 0 :=
  assignGo_spec t dist img t.n_levels [] hch

/-- A concrete one-level tree with two leaves (images 3 and 8). -/
def t8 : RegionTreeData ℚ :=
  { n_levels := 1
    nodes := [([], { image_idx := 0, n_walkers := 0, walker_idxs := [],
                     n_mergeable := 0, n_cloneable := 0, balance := 0,
                     n_squashable := none, n_possible_clones := none }),
              ([0], { image_idx := 0, n_walkers := 0, walker_idxs := [],
                      n_mergeable := 0, n_cloneable := 0, balance := 0,
                      n_squashable := none, n_possible_clones := none }),
              ([1], { image_idx := 1, n_walkers := 0, walker_idxs := [],
                      n_mergeable := 0, n_cloneable := 0, balance := 0,
                      n_squashable := none, n_possible_clones := none })]
    edges := [([], [0]), ([], [1])]
    images := [3, 8]
    walker_assignments := []
    walker_weights := [] }

/-- Witness for `c8_assign_nearest` on `t8` with the absolute-difference
distance and state image 7. -/
theorem c8_assign_nearest_witness :
    (∀ ℓ, ℓ < t8.n_levels →
      children t8 (descendPath t8 []
        ((assign t8 (fun a b => |a - b|) (7 : ℚ)).1.take ℓ)) ≠ []) ∧
    ((assign t8 (fun a b => |a - b|) (7 : ℚ)).1.length = t8.n_levels ∧
     (assign t8 (fun a b => |a - b|) (7 : ℚ)).2.length = t8.n_levels ∧
     ∀ ℓ, ℓ < t8.n_levels →
       IsNearestSelection
         (levelDists t8 (fun a b => |a - b|) (7 : ℚ)
           (descendPath t8 [] ((assign t8 (fun a b => |a - b|) (7 : ℚ)).1.take ℓ)))
         ((assign t8 (fun a b => |a - b|) (7 : ℚ)).1.getD ℓ 0) ∧
       (assign t8 (fun a b => |a - b|) (7 : ℚ)).2.getD ℓ 0
         = (levelDists t8 (fun a b => |a - b|) (7 : ℚ)
             (descendPath t8 []
               ((assign t8 (fun a b => |a - b|) (7 : ℚ)).1.take ℓ))).getD
             ((assign t8 (fun a b => |a - b|) (7 : ℚ)).1.getD ℓ 0) 0) := by
  have hch : ∀ ℓ, ℓ < t8.n_levels →
      children t8 (descendPath t8 []
        ((assign t8 (fun a b => |a - b|) (7 : ℚ)).1.take ℓ)) ≠ [] := by
    intro ℓ hℓ
    have hℓ0 : ℓ = 0 := by
      have : t8.n_levels = 1 := rfl
      omega
    subst hℓ0
    intro hcon
    have : ([0] : List ℕ) ∈ children t8 (descendPath t8 []
        ((assign t8 (fun a b => |a - b|) (7 : ℚ)).1.take 0)) := by
      show ([0] : List ℕ) ∈ children t8 []
      decide
    rw [hcon] at this
    simp at this
  exact ⟨hch, c8_assign_nearest t8 (fun a b => |a - b|) (7 : ℚ) hch⟩

/-! ## Seeding and the merge keep-choice (wexplore.py lines 1346-1350 and 1004-1022)

The process keeps two independent module-level random generators: the
stdlib `random` module (reseeded by `rand.seed`, line 1350 — the module
is imported as `rand` at line 2) and NumPy's global generator (drawn
from by `np.random.choice`, line 1012).  `GlobalRngs` models the pair of
generator states.  The concrete evolution of NumPy's Mersenne-Twister
state is irrelevant to the claim; the model keeps faithful exactly which
state each call reads and writes: `rand.seed` writes only the stdlib
state, `np.random.choice` reads and advances only the NumPy state.  The
probability vector `p` shapes the distribution but not which generator
supplies the randomness, so it is omitted. -/
structure GlobalRngs where
  py_random_state : ℕ
  np_random_state : ℕ
  deriving DecidableEq, Repr

/-- `rand.seed(s)`: reinitialises the stdlib generator only. -/
def rand_seed (s : ℕ) (g : GlobalRngs) : GlobalRngs :=
  { g with py_random_state := s }

/-- wexplore.py lines 1348-1350: `self.seed = seed`, then
`rand.seed(self.seed)` when a seed was supplied. -/
def wexplore_init_seed (seed : Option ℕ) (g : GlobalRngs) : GlobalRngs :=
  match seed with
  | some s => rand_seed s g
  | none => g

/-- Model of the external `np.random.choice(xs, 1, p)[0]`: a draw that
depends on — and only on — NumPy's global generator state and the
arguments. -/
def np_random_choice (xs : List ℕ) (g : GlobalRngs) : ℕ × GlobalRngs :=
  (xs.getD (g.np_random_state % xs.length) 0,
   { g with np_random_state := g.np_random_state + 1 })

/-- wexplore.py line 1012: the keep-walker selection of
`_decide_merge_leaf` for one full merge group,
`keep_walker_idx = np.random.choice(chosen_walker_idxs, 1, p=...)[0]`. -/
def decide_merge_keep (chosen_walker_idxs : List ℕ) (g : GlobalRngs) :
    ℕ × GlobalRngs :=
  np_random_choice chosen_walker_idxs g

/-- C9: the constructor's `rand.seed(seed)` touches only the stdlib
generator, while the keep-walker choice draws from NumPy's global
generator; two runs with the same injected seed (42), the same walkers
and the same tree state, but different ambient NumPy generator states,
select different keep walkers — the choice is not determined by the
injected seed. -/
theorem c9_seed_bug :
    (∀ (s : ℕ) (g : GlobalRngs), (rand_seed s g).np_random_state = g.np_random_state) ∧
    (wexplore_init_seed (some 42) ⟨0, 0⟩).py_random_state
      = (wexplore_init_seed (some 42) ⟨0, 1⟩).py_random_state ∧
    (decide_merge_keep [4, 7] (wexplore_init_seed (some 42) ⟨0, 0⟩)).1
      ≠ (decide_merge_keep [4, 7] (wexplore_init_seed (some 42) ⟨0, 1⟩)).1 := by
  refine ⟨fun s g => rfl, rfl, ?_⟩
  decide

end Wexplore
